import Mathlib

/-!
Verification development for the video-translator repository.

Shallow embedding of the segment-reconciliation and subtitle-serialization
core: src/core/merger.py, src/core/translator.py, src/utils/time_utils.py,
src/utils/ass_generator.py.  Python floats are modelled as rationals,
Python strings as lists of characters, dicts with a fixed field set as
structures, and exceptions as Except / Option results.
-/

/-- ASCII whitespace recognised by Python str.strip and the regex class
backslash-s (modelled for the ASCII range; the source strings involved are
produced from this alphabet). -/
def pyIsSpace (c : Char) : Bool :=
  c == ' ' || c == '\t' || c == '\n' || c == '\r' || c == '\x0b' || c == '\x0c'

/-- Python str.strip(): drop whitespace from both ends. -/
def pyStrip (s : List Char) : List Char :=
  (((s.dropWhile pyIsSpace).reverse).dropWhile pyIsSpace).reverse

/-- Python str.split(sep) for a one-character separator: every occurrence
splits, empty pieces are kept, and the empty string yields one empty piece. -/
def splitOnChar (sep : Char) : List Char → List (List Char)
  | [] => [[]]
  | c :: rest =>
    match splitOnChar sep rest with
    | [] => [[]]
    | h :: t => if c = sep then [] :: h :: t else (c :: h) :: t

/-- Numeric value of an ASCII digit character. -/
def digitVal (c : Char) : ℕ := c.toNat - 48

/-- Value of a digit string read most-significant first (Python int of a
digit-only string). -/
def digitsToNat (ds : List Char) : ℕ :=
  ds.foldl (fun a c => 10 * a + digitVal c) 0

/-- Decimal rendering with explicit recursion fuel (structural, so that
concrete instances evaluate). -/
def toDigitsGo : ℕ → ℕ → List Char
  | 0, _ => []
  | fuel + 1, n =>
    if n < 10 then [Char.ofNat (48 + n)]
    else toDigitsGo fuel (n / 10) ++ [Char.ofNat (48 + n % 10)]

theorem toDigitsGo_small (fuel n : ℕ) (hf : 0 < fuel) (hn : n < 10) :
    toDigitsGo fuel n = [Char.ofNat (48 + n)] := by
  cases fuel with
  | zero => omega
  | succ fuel => rw [toDigitsGo, if_pos hn]

/-- Decimal rendering of a natural number, most-significant digit first
(Python str of a nonnegative int). -/
def toDigits (n : ℕ) : List Char := toDigitsGo (n + 1) n

/-- Python format %02d: zero-pad to width two. -/
def pad2 (n : ℕ) : List Char :=
  if n < 10 then '0' :: toDigits n else toDigits n

theorem digit_facts :
    ∀ m, m < 10 →
      (Char.ofNat (48 + m)).isDigit = true ∧
      digitVal (Char.ofNat (48 + m)) = m ∧
      pyIsSpace (Char.ofNat (48 + m)) = false ∧
      Char.ofNat (48 + m) ≠ ':' ∧
      Char.ofNat (48 + m) ≠ '.' ∧
      Char.ofNat (48 + m) ≠ '+' ∧
      Char.ofNat (48 + m) ≠ '-' := by
  decide

theorem digit_facts_witness :
    (1 : ℕ) < 10 ∧ digitVal (Char.ofNat 49) = 1 := by
  refine ⟨by decide, ?_⟩
  have h := (digit_facts 1 (by decide)).2.1
  simpa using h

theorem digitsToNat_append_last (ds : List Char) (c : Char) :
    digitsToNat (ds ++ [c]) = 10 * digitsToNat ds + digitVal c := by
  simp [digitsToNat]

theorem toDigitsGo_fuel_free :
    ∀ fuel n, n < fuel →
      toDigitsGo fuel n ≠ [] ∧
      (∀ c ∈ toDigitsGo fuel n, c.isDigit = true) ∧
      digitsToNat (toDigitsGo fuel n) = n := by
  intro fuel
  induction fuel with
  | zero => omega
  | succ fuel ih =>
    intro n hn
    rw [toDigitsGo]
    by_cases h : n < 10
    · rw [if_pos h]
      refine ⟨by simp, ?_, ?_⟩
      · intro c hc
        simp only [List.mem_singleton] at hc
        subst hc
        exact (digit_facts n h).1
      · simp only [digitsToNat, List.foldl_cons, List.foldl_nil,
          Nat.mul_zero, Nat.zero_add]
        exact (digit_facts n h).2.1
    · rw [if_neg h]
      have hlt : n / 10 < fuel := by omega
      obtain ⟨hne, hall, hval⟩ := ih (n / 10) hlt
      refine ⟨by simp, ?_, ?_⟩
      · intro c hc
        rcases List.mem_append.mp hc with hc | hc
        · exact hall c hc
        · simp only [List.mem_singleton] at hc
          subst hc
          exact (digit_facts (n % 10) (by omega)).1
      · rw [digitsToNat_append_last, hval]
        have := (digit_facts (n % 10) (by omega)).2.1
        rw [this]
        omega

theorem toDigits_ne_nil (n : ℕ) : toDigits n ≠ [] :=
  (toDigitsGo_fuel_free (n + 1) n (by omega)).1

theorem toDigits_all_digit (n : ℕ) : ∀ c ∈ toDigits n, c.isDigit = true :=
  (toDigitsGo_fuel_free (n + 1) n (by omega)).2.1

theorem digitsToNat_toDigits (n : ℕ) : digitsToNat (toDigits n) = n :=
  (toDigitsGo_fuel_free (n + 1) n (by omega)).2.2

theorem digitsToNat_cons_zero (ds : List Char) :
    digitsToNat ('0' :: ds) = digitsToNat ds := by
  simp [digitsToNat, digitVal]

theorem pad2_all_digit (n : ℕ) : ∀ c ∈ pad2 n, c.isDigit = true := by
  unfold pad2
  split
  · intro c hc
    rcases List.mem_cons.mp hc with hc | hc
    · subst hc; decide
    · exact toDigits_all_digit n c hc
  · exact toDigits_all_digit n

theorem pad2_ne_nil (n : ℕ) : pad2 n ≠ [] := by
  unfold pad2
  split
  · simp
  · exact toDigits_ne_nil n

theorem digitsToNat_pad2 (n : ℕ) : digitsToNat (pad2 n) = n := by
  unfold pad2
  split
  · rw [digitsToNat_cons_zero, digitsToNat_toDigits]
  · rw [digitsToNat_toDigits]

/-- A digit character is not one of the special characters used by the
timestamp grammar, is not whitespace, and is not a sign. -/
theorem isDigit_special (c : Char) (h : c.isDigit = true) :
    pyIsSpace c = false ∧ c ≠ ':' ∧ c ≠ '.' ∧ c ≠ '+' ∧ c ≠ '-' := by
  have ne : ∀ x : Char, x.isDigit = false → c ≠ x := by
    intro x hx hEq
    rw [hEq, hx] at h
    exact Bool.false_ne_true h
  refine ⟨?_, ne ':' (by decide), ne '.' (by decide), ne '+' (by decide),
    ne '-' (by decide)⟩
  simp only [pyIsSpace, Bool.or_eq_false_iff, beq_eq_false_iff_ne, ne_eq]
  exact ⟨⟨⟨⟨⟨ne ' ' (by decide), ne '\t' (by decide)⟩, ne '\n' (by decide)⟩,
    ne '\r' (by decide)⟩, ne '\x0b' (by decide)⟩, ne '\x0c' (by decide)⟩

theorem isDigit_special_witness :
    ('7').isDigit = true ∧ pyIsSpace '7' = false :=
  ⟨by decide, (isDigit_special '7' (by decide)).1⟩

/-- Python int(str) on the core decimal grammar: surrounding whitespace is
stripped, an optional sign precedes one or more ASCII digits.  Modelled
without underscore separators and non-ASCII digits, which never occur in
this program's inputs. -/
def parseDigitsNat (ds : List Char) : Option ℕ :=
  if ds ≠ [] ∧ ds.all Char.isDigit then some (digitsToNat ds) else none

def parsePyInt (s : List Char) : Option ℤ :=
  match pyStrip s with
  | [] => none
  | c :: rest =>
    if c = '+' then (parseDigitsNat rest).map (fun n => (n : ℤ))
    else if c = '-' then (parseDigitsNat rest).map (fun n => -(n : ℤ))
    else (parseDigitsNat (c :: rest)).map (fun n => (n : ℤ))

/-- Value of a fraction-digit string: fracVal "25" is 25/100. -/
def fracVal (ds : List Char) : ℚ :=
  ds.foldr (fun c a => ((digitVal c : ℚ) + a) / 10) 0

/-- Python float(str) without sign: digits with an optional dot and
fraction digits, at least one digit overall.  Modelled without exponent,
infinity and nan forms, which never occur in this program's inputs. -/
def parseUnsignedFloat (s : List Char) : Option ℚ :=
  let ip := s.takeWhile Char.isDigit
  match s.dropWhile Char.isDigit with
  | [] => if ip = [] then none else some (digitsToNat ip)
  | '.' :: fp =>
    if fp.all Char.isDigit ∧ (ip ≠ [] ∨ fp ≠ []) then
      some ((digitsToNat ip : ℚ) + fracVal fp)
    else none
  | _ => none

def parsePyFloat (s : List Char) : Option ℚ :=
  match pyStrip s with
  | [] => none
  | c :: rest =>
    if c = '+' then parseUnsignedFloat rest
    else if c = '-' then (parseUnsignedFloat rest).map Neg.neg
    else parseUnsignedFloat (c :: rest)

theorem dropWhile_of_all_false (p : Char → Bool) :
    ∀ l : List Char, (∀ c ∈ l, p c = false) → l.dropWhile p = l := by
  intro l h
  induction l with
  | nil => rfl
  | cons c rest ih =>
    rw [List.dropWhile_cons]
    rw [h c (List.mem_cons_self c rest)]
    simp

theorem pyStrip_no_space (s : List Char)
    (h : ∀ c ∈ s, pyIsSpace c = false) : pyStrip s = s := by
  unfold pyStrip
  rw [dropWhile_of_all_false pyIsSpace s h]
  rw [dropWhile_of_all_false pyIsSpace s.reverse
    (fun c hc => h c (List.mem_reverse.mp hc))]
  exact List.reverse_reverse s

theorem takeWhile_append_stop (p : Char → Bool) (x : Char) (l₂ : List Char)
    (hx : p x = false) :
    ∀ l₁ : List Char, (∀ c ∈ l₁, p c = true) →
      (l₁ ++ x :: l₂).takeWhile p = l₁ := by
  intro l₁ h
  induction l₁ with
  | nil => simp [List.takeWhile_cons, hx]
  | cons c rest ih =>
    simp only [List.cons_append, List.takeWhile_cons]
    rw [h c (List.mem_cons_self c rest)]
    simp only [if_true]
    rw [ih (fun d hd => h d (List.mem_cons_of_mem c hd))]

theorem dropWhile_append_stop (p : Char → Bool) (x : Char) (l₂ : List Char)
    (hx : p x = false) :
    ∀ l₁ : List Char, (∀ c ∈ l₁, p c = true) →
      (l₁ ++ x :: l₂).dropWhile p = x :: l₂ := by
  intro l₁ h
  induction l₁ with
  | nil => simp [List.dropWhile_cons, hx]
  | cons c rest ih =>
    simp only [List.cons_append, List.dropWhile_cons]
    rw [h c (List.mem_cons_self c rest)]
    simp only [if_true]
    exact ih (fun d hd => h d (List.mem_cons_of_mem c hd))

theorem takeWhile_of_all_true (p : Char → Bool) :
    ∀ l : List Char, (∀ c ∈ l, p c = true) → l.takeWhile p = l := by
  intro l h
  induction l with
  | nil => rfl
  | cons c rest ih =>
    rw [List.takeWhile_cons, h c (List.mem_cons_self c rest)]
    simp only [if_true]
    rw [ih (fun d hd => h d (List.mem_cons_of_mem c hd))]

theorem dropWhile_of_all_true (p : Char → Bool) :
    ∀ l : List Char, (∀ c ∈ l, p c = true) → l.dropWhile p = [] := by
  intro l h
  induction l with
  | nil => rfl
  | cons c rest ih =>
    rw [List.dropWhile_cons, h c (List.mem_cons_self c rest)]
    simp only [if_true]
    exact ih (fun d hd => h d (List.mem_cons_of_mem c hd))

theorem splitOnChar_no_sep (sep : Char) :
    ∀ l : List Char, sep ∉ l → splitOnChar sep l = [l] := by
  intro l h
  induction l with
  | nil => rfl
  | cons c rest ih =>
    rw [splitOnChar]
    rw [ih (fun hm => h (List.mem_cons_of_mem c hm))]
    have hc : ¬(c = sep) := fun hEq => h (hEq ▸ List.mem_cons_self c rest)
    simp [hc]

theorem splitOnChar_append_sep (sep : Char) (rest : List Char) :
    ∀ a : List Char, sep ∉ a →
      splitOnChar sep (a ++ sep :: rest) = a :: splitOnChar sep rest := by
  intro a h
  induction a with
  | nil =>
    simp only [List.nil_append]
    rw [splitOnChar]
    cases hs : splitOnChar sep rest with
    | nil =>
      exfalso
      induction rest with
      | nil => simp [splitOnChar] at hs
      | cons d t iht =>
        rw [splitOnChar] at hs
        cases ht : splitOnChar sep t with
        | nil => exact iht ht
        | cons x xs =>
          rw [ht] at hs
          by_cases hd : d = sep <;> simp [hd] at hs
    | cons x xs => simp
  | cons c t ih =>
    have hc : ¬(c = sep) := fun hEq => h (hEq ▸ List.mem_cons_self c t)
    simp only [List.cons_append]
    rw [splitOnChar]
    rw [ih (fun hm => h (List.mem_cons_of_mem c hm))]
    simp [hc]

theorem parseDigitsNat_digits (ds : List Char) (hne : ds ≠ [])
    (hd : ∀ c ∈ ds, c.isDigit = true) :
    parseDigitsNat ds = some (digitsToNat ds) := by
  unfold parseDigitsNat
  rw [if_pos]
  exact ⟨hne, List.all_eq_true.mpr (fun c hc => hd c hc)⟩

theorem parsePyInt_digits (ds : List Char) (hne : ds ≠ [])
    (hd : ∀ c ∈ ds, c.isDigit = true) :
    parsePyInt ds = some ((digitsToNat ds : ℤ)) := by
  unfold parsePyInt
  have hstrip : pyStrip ds = ds :=
    pyStrip_no_space ds (fun c hc => (isDigit_special c (hd c hc)).1)
  rw [hstrip]
  cases ds with
  | nil => exact absurd rfl hne
  | cons c rest =>
    have hc := hd c (List.mem_cons_self c rest)
    have hplus : ¬(c = '+') := (isDigit_special c hc).2.2.2.1
    have hminus : ¬(c = '-') := (isDigit_special c hc).2.2.2.2
    simp only [hplus, hminus, if_false]
    rw [parseDigitsNat_digits (c :: rest) (by simp) hd]
    rfl

/-- Python format %05.2f for a nonnegative value below 100: two integer
digits (zero padded), a dot, two fraction digits.  The centisecond
rounding of the float format is modelled as rounding to the nearest
multiple of 1/100 (Mathlib round; the binary-float half-even choice
differs only on exact half-centisecond inputs). -/
def fmt52 (x : ℚ) : List Char :=
  pad2 ((round (100 * x) / 100 : ℤ)).toNat ++
    '.' :: pad2 ((round (100 * x) % 100 : ℤ)).toNat

/-- Embedding of seconds_to_ass_time (src/utils/time_utils.py): clamp
negative input to zero, then H:MM:SS.cc with Python floor division and
float modulo. -/
def seconds_to_ass_time (seconds : ℚ) : List Char :=
  let s := if seconds < 0 then 0 else seconds
  toDigits ((⌊s / 3600⌋).toNat) ++
    ':' :: (pad2 ((⌊(s - 3600 * ⌊s / 3600⌋) / 60⌋).toNat) ++
      ':' :: fmt52 (s - 60 * ⌊s / 60⌋))

/-- Embedding of ass_time_to_seconds (src/utils/time_utils.py): split on
colons, require exactly three parts, convert via Python int/int/float;
any failure raises ValueError, modelled as the error branch. -/
def ass_time_to_seconds (time_str : List Char) : Except (List Char) ℚ :=
  let parts := splitOnChar ':' time_str
  if parts.length = 3 then
    match parsePyInt (parts.getD 0 []), parsePyInt (parts.getD 1 []),
        parsePyFloat (parts.getD 2 []) with
    | some h, some m, some sec => .ok ((h : ℚ) * 3600 + (m : ℚ) * 60 + sec)
    | _, _, _ => .error time_str
  else .error time_str

theorem getD3_len (a b c : List Char) : ([a, b, c] : List (List Char)).length = 3 := rfl

theorem getD3_0 (a b c : List Char) : ([a, b, c] : List (List Char)).getD 0 [] = a := rfl

theorem getD3_1 (a b c : List Char) : ([a, b, c] : List (List Char)).getD 1 [] = b := rfl

theorem getD3_2 (a b c : List Char) : ([a, b, c] : List (List Char)).getD 2 [] = c := rfl

theorem parseUnsignedFloat_digits_dot (a b : List Char) (ha : a ≠ [])
    (hda : ∀ c ∈ a, c.isDigit = true) (hdb : ∀ c ∈ b, c.isDigit = true) :
    parseUnsignedFloat (a ++ '.' :: b) = some ((digitsToNat a : ℚ) + fracVal b) := by
  unfold parseUnsignedFloat
  rw [takeWhile_append_stop Char.isDigit '.' b (by decide) a hda]
  rw [dropWhile_append_stop Char.isDigit '.' b (by decide) a hda]
  simp only []
  rw [if_pos ⟨List.all_eq_true.mpr (fun c hc => hdb c hc), Or.inl ha⟩]

theorem parsePyFloat_digits_dot (a b : List Char) (ha : a ≠ [])
    (hda : ∀ c ∈ a, c.isDigit = true) (hdb : ∀ c ∈ b, c.isDigit = true) :
    parsePyFloat (a ++ '.' :: b) = some ((digitsToNat a : ℚ) + fracVal b) := by
  have hall : ∀ c ∈ a ++ '.' :: b, pyIsSpace c = false := by
    intro c hc
    rcases List.mem_append.mp hc with hc | hc
    · exact (isDigit_special c (hda c hc)).1
    · rcases List.mem_cons.mp hc with hc | hc
      · subst hc; decide
      · exact (isDigit_special c (hdb c hc)).1
  unfold parsePyFloat
  rw [pyStrip_no_space _ hall]
  cases a with
  | nil => exact absurd rfl ha
  | cons c rest =>
    have hc := hda c (List.mem_cons_self c rest)
    have hplus : ¬(c = '+') := (isDigit_special c hc).2.2.2.1
    have hminus : ¬(c = '-') := (isDigit_special c hc).2.2.2.2
    simp only [List.cons_append, hplus, hminus, if_false]
    rw [← List.cons_append]
    exact parseUnsignedFloat_digits_dot (c :: rest) b (by simp) hda hdb

theorem fracVal_pad2 (r : ℕ) (hr : r < 100) :
    fracVal (pad2 r) = (r : ℚ) / 100 := by
  by_cases h : r < 10
  · have hd : toDigits r = [Char.ofNat (48 + r)] := by
      rw [toDigits, toDigitsGo, if_pos h]
    rw [pad2, if_pos h, hd]
    simp only [fracVal, List.foldr_cons, List.foldr_nil]
    rw [(digit_facts r h).2.1]
    rw [show digitVal '0' = 0 from by decide]
    push_cast
    ring
  · have hq : r / 10 < 10 := by omega
    have hd : toDigits r = [Char.ofNat (48 + r / 10), Char.ofNat (48 + r % 10)] := by
      rw [toDigits, toDigitsGo, if_neg h, toDigitsGo_small r (r / 10) (by omega) hq]
      simp
    rw [pad2, if_neg h, hd]
    simp only [fracVal, List.foldr_cons, List.foldr_nil]
    rw [(digit_facts (r / 10) hq).2.1, (digit_facts (r % 10) (by omega)).2.1]
    have hcast : (r : ℚ) = 10 * ((r / 10 : ℕ) : ℚ) + ((r % 10 : ℕ) : ℚ) := by
      have h10 : (10 * (r / 10) + r % 10 : ℕ) = r := by omega
      calc (r : ℚ) = ((10 * (r / 10) + r % 10 : ℕ) : ℚ) := by rw [h10]
        _ = 10 * ((r / 10 : ℕ) : ℚ) + ((r % 10 : ℕ) : ℚ) := by push_cast; ring
    rw [hcast]
    ring

theorem not_colon_mem_digits (l : List Char)
    (h : ∀ c ∈ l, c.isDigit = true) : ':' ∉ l :=
  fun hm => absurd (h ':' hm) (by decide)

theorem fmt52_parse (x : ℚ) (hx : 0 ≤ x) :
    parsePyFloat (fmt52 x) = some ((round (100 * x) : ℚ) / 100) ∧
      ':' ∉ fmt52 x := by
  unfold fmt52
  set cz := round (100 * x) with hcz
  have hc0 : 0 ≤ cz := by
    rw [hcz, round_eq]
    exact Int.floor_nonneg.mpr (by linarith)
  have hq : ((cz / 100).toNat : ℤ) = cz / 100 :=
    Int.toNat_of_nonneg (Int.ediv_nonneg hc0 (by norm_num))
  have hrmod0 : 0 ≤ cz % 100 := Int.emod_nonneg cz (by norm_num)
  have hrmod : cz % 100 < 100 := Int.emod_lt_of_pos cz (by norm_num)
  have hrn : ((cz % 100).toNat : ℤ) = cz % 100 := Int.toNat_of_nonneg hrmod0
  have hrlt : (cz % 100).toNat < 100 := by omega
  constructor
  · rw [parsePyFloat_digits_dot _ _ (pad2_ne_nil _) (pad2_all_digit _)
      (pad2_all_digit _)]
    rw [digitsToNat_pad2, fracVal_pad2 _ hrlt]
    congr 1
    have e1 : ((cz / 100).toNat : ℚ) = ((cz / 100 : ℤ) : ℚ) := by
      exact_mod_cast hq
    have e2 : ((cz % 100).toNat : ℚ) = ((cz % 100 : ℤ) : ℚ) := by
      exact_mod_cast hrn
    have hdm : (cz : ℚ) = 100 * ((cz / 100 : ℤ) : ℚ) + ((cz % 100 : ℤ) : ℚ) := by
      exact_mod_cast (Int.ediv_add_emod cz 100).symm
    rw [e1, e2, hdm]
    ring
  · intro hm
    rcases List.mem_append.mp hm with hm | hm
    · exact not_colon_mem_digits _ (pad2_all_digit _) hm
    · rcases List.mem_cons.mp hm with hm | hm
      · exact absurd hm (by decide)
      · exact not_colon_mem_digits _ (pad2_all_digit _) hm

set_option maxHeartbeats 1000000 in
/-- Core roundtrip: formatting a nonnegative time and parsing it back
recovers the value to within one centisecond. -/
theorem ass_time_roundtrip (t : ℚ) (ht : 0 ≤ t) :
    ∃ r, ass_time_to_seconds (seconds_to_ass_time t) = .ok r ∧
      |r - t| ≤ 1 / 100 := by
  have hnotlt : ¬ t < 0 := not_lt.mpr ht
  have hfmt : seconds_to_ass_time t =
      toDigits (⌊t / 3600⌋).toNat ++
        ':' :: (pad2 ((⌊(t - 3600 * ⌊t / 3600⌋) / 60⌋).toNat) ++
          ':' :: fmt52 (t - 60 * ⌊t / 60⌋)) := by
    rw [seconds_to_ass_time]
    simp only [if_neg hnotlt]
  set Hz := ⌊t / 3600⌋ with hHzd
  set Mz := ⌊(t - 3600 * Hz) / 60⌋ with hMzd
  set secs := t - 60 * ⌊t / 60⌋ with hsecsd
  -- bounds on the floor decomposition
  have hH1 : (Hz : ℚ) ≤ t / 3600 := Int.floor_le _
  have hH2 : t / 3600 < Hz + 1 := Int.lt_floor_add_one _
  have hHz0 : 0 ≤ Hz := Int.floor_nonneg.mpr (by positivity)
  have hr1a : 0 ≤ t - 3600 * (Hz : ℚ) := by linarith
  have hr1b : t - 3600 * (Hz : ℚ) < 3600 := by linarith
  have hM1 : (Mz : ℚ) ≤ (t - 3600 * Hz) / 60 := Int.floor_le _
  have hM2 : (t - 3600 * Hz) / 60 < Mz + 1 := Int.lt_floor_add_one _
  have hMz0 : 0 ≤ Mz := Int.floor_nonneg.mpr (by positivity)
  have hMza : (Mz : ℚ) * 60 ≤ t - 3600 * Hz := by linarith
  have hMzb : t - 3600 * Hz < (Mz : ℚ) * 60 + 60 := by linarith
  have hkey : ⌊t / 60⌋ = 60 * Hz + Mz := by
    have hsplit : t / 60 = ((60 * Hz : ℤ) : ℚ) + (t - 3600 * Hz) / 60 := by
      push_cast
      ring
    rw [hsplit, Int.floor_int_add]
  have hsec0 : 0 ≤ secs := by
    rw [hsecsd, hkey]
    push_cast
    linarith
  have hsec60 : secs < 60 := by
    rw [hsecsd, hkey]
    push_cast
    linarith
  have hsum : ((Hz.toNat : ℚ)) * 3600 + (Mz.toNat : ℚ) * 60 + secs = t := by
    rw [hsecsd, hkey]
    have e1 : ((Hz.toNat : ℤ) : ℚ) = (Hz : ℚ) := by
      rw [Int.toNat_of_nonneg hHz0]
    have e2 : ((Mz.toNat : ℤ) : ℚ) = (Mz : ℚ)  := by
      rw [Int.toNat_of_nonneg hMz0]
    push_cast
    push_cast at e1 e2
    rw [e1, e2]
    ring
  -- parse the formatted string
  obtain ⟨hpf, hnc⟩ := fmt52_parse secs hsec0
  have hsplit3 : splitOnChar ':' (seconds_to_ass_time t) =
      [toDigits Hz.toNat, pad2 Mz.toNat, fmt52 secs] := by
    rw [hfmt]
    rw [splitOnChar_append_sep ':' _ _
      (not_colon_mem_digits _ (toDigits_all_digit _))]
    rw [splitOnChar_append_sep ':' _ _
      (not_colon_mem_digits _ (pad2_all_digit _))]
    rw [splitOnChar_no_sep ':' _ hnc]
  refine ⟨(Hz.toNat : ℚ) * 3600 + (Mz.toNat : ℚ) * 60 +
    (round (100 * secs) : ℚ) / 100, ?_, ?_⟩
  · have h0 := parsePyInt_digits _ (toDigits_ne_nil Hz.toNat)
      (toDigits_all_digit Hz.toNat)
    have h1 := parsePyInt_digits _ (pad2_ne_nil Mz.toNat)
      (pad2_all_digit Mz.toNat)
    rw [digitsToNat_toDigits] at h0
    rw [digitsToNat_pad2] at h1
    simp only [ass_time_to_seconds]
    rw [hsplit3, getD3_len, getD3_0, getD3_1, getD3_2, if_pos rfl]
    rw [h0, h1, hpf]
    congr 1
  · have hround : |(round (100 * secs) : ℚ) - 100 * secs| ≤ 1 / 2 := by
      rw [abs_sub_comm]
      exact abs_sub_round (100 * secs)
    have : (Hz.toNat : ℚ) * 3600 + (Mz.toNat : ℚ) * 60 +
        (round (100 * secs) : ℚ) / 100 - t =
        ((round (100 * secs) : ℚ) - 100 * secs) / 100 := by
      rw [← hsum]
      ring
    rw [this, abs_div]
    rw [abs_of_pos (show (0:ℚ) < 100 by norm_num)]
    linarith [abs_nonneg ((round (100 * secs) : ℚ) - 100 * secs),
      hround]

/-- C5: for every nonnegative time, parsing the formatted timestamp
recovers the time to within 0.01 seconds, and the three anchor points
format exactly as specified, with negative input clamped to zero. -/
theorem spec_C5_timestamp_roundtrip_anchors :
    (∀ t : ℚ, 0 ≤ t →
      ∃ r, ass_time_to_seconds (seconds_to_ass_time t) = .ok r ∧
        |r - t| ≤ 1 / 100)
    ∧ seconds_to_ass_time 0 = "0:00:00.00".toList
    ∧ seconds_to_ass_time 3661 = "1:01:01.00".toList
    ∧ seconds_to_ass_time (-5) = "0:00:00.00".toList := by
  refine ⟨ass_time_roundtrip, ?_, ?_, ?_⟩ <;>
  · simp only [seconds_to_ass_time, fmt52]
    rw [round_eq]
    norm_num
    decide

theorem spec_C5_witness :
    (0 : ℚ) ≤ 5 / 2 ∧
      ∃ r, ass_time_to_seconds (seconds_to_ass_time (5 / 2)) = .ok r ∧
        |r - 5 / 2| ≤ 1 / 100 :=
  ⟨by norm_num,
    spec_C5_timestamp_roundtrip_anchors.1 (5 / 2) (by norm_num)⟩

/-- Strict shape H:MM:SS.cc from the spec: three colon-separated fields,
hours one or more digits, minutes exactly two digits, seconds exactly two
digits, a dot, and exactly two centisecond digits.  This follows the
spec's grammar wording; it is compared against the parser from the
source. -/
def strictAssShapeB (s : List Char) : Bool :=
  match splitOnChar ':' s with
  | [p0, p1, p2] =>
    (!p0.isEmpty) && p0.all Char.isDigit &&
    (match p1 with
     | [x, y] => x.isDigit && y.isDigit
     | _ => false) &&
    (match p2 with
     | [a, b, dot, c, d] =>
       a.isDigit && b.isDigit && (dot == '.') && c.isDigit && d.isDigit
     | _ => false)
  | _ => false

/-- The parser accepts the string 0:0:0.00, which is not of the strict
H:MM:SS.cc shape (single-digit minutes and seconds), so raising is not
exactly characterised by that shape. -/
theorem spec_C7_counterexample :
    strictAssShapeB ("0:0:0.00".toList) = false ∧
      (ass_time_to_seconds ("0:0:0.00".toList)).isOk = true := by
  constructor
  · decide
  · decide

theorem ass_time_strict_ok (hrs : List Char) (m1 m0 a b c d : Char)
    (hne : hrs ≠ []) (hd : ∀ x ∈ hrs, x.isDigit = true)
    (h6 : ∀ x ∈ [m1, m0, a, b, c, d], x.isDigit = true) :
    ass_time_to_seconds
        (hrs ++ ':' :: ([m1, m0] ++ ':' :: ([a, b] ++ '.' :: [c, d]))) =
      .ok ((digitsToNat hrs : ℚ) * 3600 + (digitsToNat [m1, m0] : ℚ) * 60 +
        ((digitsToNat [a, b] : ℚ) + fracVal [c, d])) := by
  have hdm : ∀ x ∈ ([m1, m0] : List Char), x.isDigit = true := by
    intro x hx
    apply h6
    simp only [List.mem_cons, List.not_mem_nil, or_false] at hx ⊢
    tauto
  have hdab : ∀ x ∈ ([a, b] : List Char), x.isDigit = true := by
    intro x hx
    apply h6
    simp only [List.mem_cons, List.not_mem_nil, or_false] at hx ⊢
    tauto
  have hdcd : ∀ x ∈ ([c, d] : List Char), x.isDigit = true := by
    intro x hx
    apply h6
    simp only [List.mem_cons, List.not_mem_nil, or_false] at hx ⊢
    tauto
  have hsplit : splitOnChar ':'
      (hrs ++ ':' :: ([m1, m0] ++ ':' :: ([a, b] ++ '.' :: [c, d]))) =
      [hrs, [m1, m0], [a, b] ++ '.' :: [c, d]] := by
    rw [splitOnChar_append_sep ':' _ _ (not_colon_mem_digits _ hd)]
    rw [splitOnChar_append_sep ':' _ _ (not_colon_mem_digits _ hdm)]
    rw [splitOnChar_no_sep ':' _ ?hnc]
    case hnc =>
      intro hm
      rcases List.mem_append.mp hm with hm | hm
      · exact absurd (hdab ':' hm) (by decide)
      · rcases List.mem_cons.mp hm with hm | hm
        · exact absurd hm (by decide)
        · exact absurd (hdcd ':' hm) (by decide)
  have h0 := parsePyInt_digits hrs hne hd
  have h1 := parsePyInt_digits [m1, m0] (by simp) hdm
  have h2 := parsePyFloat_digits_dot [a, b] [c, d] (by simp) hdab hdcd
  simp only [ass_time_to_seconds]
  rw [hsplit, getD3_len, getD3_0, getD3_1, getD3_2, if_pos rfl]
  rw [h0, h1, h2]
  congr 1

theorem ass_time_ok_iff (s : List Char) :
    (ass_time_to_seconds s).isOk = true ↔
      ((splitOnChar ':' s).length = 3 ∧
        (parsePyInt ((splitOnChar ':' s).getD 0 [])).isSome = true ∧
        (parsePyInt ((splitOnChar ':' s).getD 1 [])).isSome = true ∧
        (parsePyFloat ((splitOnChar ':' s).getD 2 [])).isSome = true) := by
  simp only [ass_time_to_seconds]
  by_cases hlen : (splitOnChar ':' s).length = 3
  · rw [if_pos hlen]
    cases h0 : parsePyInt ((splitOnChar ':' s).getD 0 []) with
    | none => simp [Except.isOk, Except.toBool, hlen, h0]
    | some v0 =>
      cases h1 : parsePyInt ((splitOnChar ':' s).getD 1 []) with
      | none => simp [Except.isOk, Except.toBool, hlen, h0, h1]
      | some v1 =>
        cases h2 : parsePyFloat ((splitOnChar ':' s).getD 2 []) with
        | none => simp [Except.isOk, Except.toBool, hlen, h0, h1, h2]
        | some v2 => simp [Except.isOk, Except.toBool, hlen, h0, h1, h2]
  · rw [if_neg hlen]
    simp [Except.isOk, Except.toBool, hlen]

/-- C7 amended: the parser fails exactly when the colon-split does not
have three fields or a field fails the Python int/int/float conversion;
on every string of the strict H:MM:SS.cc grammar it succeeds and returns
hours*3600 + minutes*60 + seconds.  (The raise set is strictly smaller
than the complement of the strict grammar: unpadded fields are also
accepted, see the counterexample.) -/
theorem spec_C7_parse_raises_iff :
    (∀ (hrs : List Char) (m1 m0 a b c d : Char), hrs ≠ [] →
      (∀ x ∈ hrs, x.isDigit = true) →
      (∀ x ∈ [m1, m0, a, b, c, d], x.isDigit = true) →
      ass_time_to_seconds
          (hrs ++ ':' :: ([m1, m0] ++ ':' :: ([a, b] ++ '.' :: [c, d]))) =
        .ok ((digitsToNat hrs : ℚ) * 3600 +
          (digitsToNat [m1, m0] : ℚ) * 60 +
          ((digitsToNat [a, b] : ℚ) + fracVal [c, d])))
    ∧ (∀ s, (ass_time_to_seconds s).isOk = true ↔
        ((splitOnChar ':' s).length = 3 ∧
          (parsePyInt ((splitOnChar ':' s).getD 0 [])).isSome = true ∧
          (parsePyInt ((splitOnChar ':' s).getD 1 [])).isSome = true ∧
          (parsePyFloat ((splitOnChar ':' s).getD 2 [])).isSome = true)) :=
  ⟨ass_time_strict_ok, ass_time_ok_iff⟩

theorem spec_C7_witness :
    (ass_time_to_seconds
        ("1".toList ++ ':' :: (['0', '1'] ++ ':' :: (['0', '1'] ++ '.' :: ['0', '0']))) =
      .ok ((digitsToNat "1".toList : ℚ) * 3600 +
        (digitsToNat ['0', '1'] : ℚ) * 60 +
        ((digitsToNat ['0', '1'] : ℚ) + fracVal ['0', '0'])))
    ∧ ((ass_time_to_seconds ("abc".toList)).isOk = true ↔
        ((splitOnChar ':' ("abc".toList)).length = 3 ∧
          (parsePyInt ((splitOnChar ':' ("abc".toList)).getD 0 [])).isSome = true ∧
          (parsePyInt ((splitOnChar ':' ("abc".toList)).getD 1 [])).isSome = true ∧
          (parsePyFloat ((splitOnChar ':' ("abc".toList)).getD 2 [])).isSome = true)) :=
  ⟨spec_C7_parse_raises_iff.1 "1".toList '0' '1' '0' '1' '0' '0'
      (by decide) (by decide) (by decide),
    spec_C7_parse_raises_iff.2 ("abc".toList)⟩

/-- One diarization turn: a dict with start, end, speaker
(src/core/merger.py).  The end field is named stop since end is a
reserved word. -/
structure DiarSeg where
  start : ℚ
  stop : ℚ
  speaker : List Char
deriving DecidableEq

/-- One transcription segment: a dict with start, end, text. -/
structure TransSeg where
  start : ℚ
  stop : ℚ
  text : List Char
deriving DecidableEq

/-- One merged segment: start, end, text, speaker. -/
structure MergedSeg where
  start : ℚ
  stop : ℚ
  text : List Char
  speaker : List Char
deriving DecidableEq

/-- Overlap duration computed in the loop body of find_best_speaker:
max(0, min(trans_end, seg.end) - max(trans_start, seg.start)). -/
def overlapOf (ts te : ℚ) (d : DiarSeg) : ℚ :=
  max 0 (min te d.stop - max ts d.start)

/-- Loop of find_best_speaker: carries best speaker and best overlap,
updating only on strict improvement. -/
def findBestGo (ts te : ℚ) : List DiarSeg → List Char → ℚ → List Char
  | [], best, _ => best
  | d :: rest, best, bo =>
    if bo < overlapOf ts te d then
      findBestGo ts te rest d.speaker (overlapOf ts te d)
    else findBestGo ts te rest best bo

/-- Embedding of find_best_speaker (src/core/merger.py). -/
def find_best_speaker (ts te : ℚ) (segs : List DiarSeg) : List Char :=
  findBestGo ts te segs "UNKNOWN".toList 0

/-- Embedding of merge_segments (src/core/merger.py); the second argument
models the optional diarization list (None or a list, an empty list being
falsy like None). -/
def merge_segments (trans : List TransSeg) (diar : Option (List DiarSeg)) :
    List MergedSeg :=
  if trans = [] then []
  else
    match diar with
    | none => trans.map (fun t => ⟨t.start, t.stop, t.text, "SPEAKER_00".toList⟩)
    | some [] => trans.map (fun t => ⟨t.start, t.stop, t.text, "SPEAKER_00".toList⟩)
    | some (d :: ds) =>
      trans.map (fun t =>
        ⟨t.start, t.stop, t.text, find_best_speaker t.start t.stop (d :: ds)⟩)

/-- Loop of consolidate_segments: the current accumulator merges a
following segment iff same speaker, gap within max_gap and total span
within max_duration; otherwise it is flushed. -/
def consolidateGo (maxGap maxDur : ℚ) : List MergedSeg → MergedSeg → List MergedSeg
  | [], cur => [cur]
  | seg :: rest, cur =>
    if seg.speaker = cur.speaker ∧ seg.start - cur.stop ≤ maxGap ∧
        seg.stop - cur.start ≤ maxDur then
      consolidateGo maxGap maxDur rest
        { cur with stop := seg.stop, text := cur.text ++ ' ' :: seg.text }
    else cur :: consolidateGo maxGap maxDur rest seg

/-- Embedding of consolidate_segments (src/core/merger.py). -/
def consolidate_segments (segs : List MergedSeg) (maxGap maxDur : ℚ) :
    List MergedSeg :=
  match segs with
  | [] => []
  | first :: rest => consolidateGo maxGap maxDur rest first

theorem findBestGo_no_improve (ts te : ℚ) :
    ∀ (segs : List DiarSeg) (best : List Char) (bo : ℚ),
      (∀ d ∈ segs, overlapOf ts te d ≤ bo) →
      findBestGo ts te segs best bo = best := by
  intro segs
  induction segs with
  | nil => intro best bo _; rfl
  | cons d rest ih =>
    intro best bo h
    rw [findBestGo]
    rw [if_neg (not_lt.mpr (h d (List.mem_cons_self d rest)))]
    exact ih best bo (fun s hs => h s (List.mem_cons_of_mem d hs))

theorem findBestGo_finds (ts te : ℚ) :
    ∀ (segs : List DiarSeg) (best : List Char) (bo : ℚ),
      (∃ d ∈ segs, bo < overlapOf ts te d) →
      ∃ i, ∃ hi : i < segs.length,
        findBestGo ts te segs best bo = (segs.get ⟨i, hi⟩).speaker ∧
        bo < overlapOf ts te (segs.get ⟨i, hi⟩) ∧
        (∀ j (hj : j < segs.length),
          overlapOf ts te (segs.get ⟨j, hj⟩) ≤
            overlapOf ts te (segs.get ⟨i, hi⟩)) ∧
        (∀ j (hj : j < segs.length), j < i →
          overlapOf ts te (segs.get ⟨j, hj⟩) <
            overlapOf ts te (segs.get ⟨i, hi⟩)) := by
  intro segs
  induction segs with
  | nil =>
    intro best bo h
    simp at h
  | cons d rest ih =>
    intro best bo h
    rw [findBestGo]
    by_cases hd : bo < overlapOf ts te d
    · rw [if_pos hd]
      by_cases hrest : ∃ s ∈ rest, overlapOf ts te d < overlapOf ts te s
      · obtain ⟨i, hi, heq, hbo, hmax, hfirst⟩ :=
          ih d.speaker (overlapOf ts te d) hrest
        refine ⟨i + 1, Nat.succ_lt_succ hi, ?_, ?_, ?_, ?_⟩
        · rw [List.get_cons_succ]
          exact heq
        · rw [List.get_cons_succ]
          exact lt_trans hd hbo
        · intro j hj
          cases j with
          | zero =>
            simp only [List.get_cons_succ, List.get_cons_zero]
            exact le_of_lt hbo
          | succ j =>
            simp only [List.get_cons_succ]
            exact hmax j (Nat.lt_of_succ_lt_succ hj)
        · intro j hj hji
          cases j with
          | zero =>
            simp only [List.get_cons_succ, List.get_cons_zero]
            exact hbo
          | succ j =>
            simp only [List.get_cons_succ]
            exact hfirst j (Nat.lt_of_succ_lt_succ hj) (Nat.lt_of_succ_lt_succ hji)
      · push_neg at hrest
        rw [findBestGo_no_improve ts te rest d.speaker (overlapOf ts te d) hrest]
        refine ⟨0, Nat.succ_pos _, rfl, hd, ?_, ?_⟩
        · intro j hj
          cases j with
          | zero => exact le_refl _
          | succ j =>
            simp only [List.get_cons_succ, List.get_cons_zero]
            exact hrest _ (List.get_mem rest _ _)
        · intro j hj hji
          omega
    · rw [if_neg hd]
      have hrest : ∃ s ∈ rest, bo < overlapOf ts te s := by
        obtain ⟨s, hs, hbs⟩ := h
        rcases List.mem_cons.mp hs with hs | hs
        · exact absurd (hs ▸ hbs) hd
        · exact ⟨s, hs, hbs⟩
      obtain ⟨i, hi, heq, hbo, hmax, hfirst⟩ := ih best bo hrest
      refine ⟨i + 1, Nat.succ_lt_succ hi, ?_, ?_, ?_, ?_⟩
      · rw [List.get_cons_succ]
        exact heq
      · rw [List.get_cons_succ]
        exact hbo
      · intro j hj
        cases j with
        | zero =>
          simp only [List.get_cons_succ, List.get_cons_zero]
          exact le_trans (not_lt.mp hd) (le_of_lt hbo)
        | succ j =>
          simp only [List.get_cons_succ]
          exact hmax j (Nat.lt_of_succ_lt_succ hj)
      · intro j hj hji
        cases j with
        | zero =>
          simp only [List.get_cons_succ, List.get_cons_zero]
          exact lt_of_le_of_lt (not_lt.mp hd) hbo
        | succ j =>
          simp only [List.get_cons_succ]
          exact hfirst j (Nat.lt_of_succ_lt_succ hj) (Nat.lt_of_succ_lt_succ hji)

/-- C1: the assigned speaker is that of the turn with the strictly
greatest positive overlap, ties resolving to the earliest turn in input
order, and UNKNOWN when no turn has positive overlap. -/
theorem spec_C1_best_overlap_speaker (ts te : ℚ) (segs : List DiarSeg) :
    ((∀ d ∈ segs, ¬ (0 < overlapOf ts te d)) →
      find_best_speaker ts te segs = "UNKNOWN".toList)
    ∧ ((∃ d ∈ segs, 0 < overlapOf ts te d) →
      ∃ i, ∃ hi : i < segs.length,
        find_best_speaker ts te segs = (segs.get ⟨i, hi⟩).speaker ∧
        0 < overlapOf ts te (segs.get ⟨i, hi⟩) ∧
        (∀ j (hj : j < segs.length),
          overlapOf ts te (segs.get ⟨j, hj⟩) ≤
            overlapOf ts te (segs.get ⟨i, hi⟩)) ∧
        (∀ j (hj : j < segs.length),
          overlapOf ts te (segs.get ⟨j, hj⟩) =
            overlapOf ts te (segs.get ⟨i, hi⟩) → i ≤ j)) := by
  constructor
  · intro h
    exact findBestGo_no_improve ts te segs _ 0 (fun d hd => not_lt.mp (h d hd))
  · intro h
    obtain ⟨i, hi, heq, hbo, hmax, hfirst⟩ := findBestGo_finds ts te segs _ 0 h
    refine ⟨i, hi, heq, hbo, hmax, ?_⟩
    intro j hj hEq
    by_contra hlt
    push_neg at hlt
    exact absurd hEq (ne_of_lt (hfirst j hj hlt))

theorem spec_C1_witness :
    (find_best_speaker 2 3 [⟨0, 1, "A".toList⟩] = "UNKNOWN".toList)
    ∧ (∃ i, ∃ hi : i <
        ([⟨0, 1, "A".toList⟩, ⟨0, 1, "B".toList⟩] : List DiarSeg).length,
        find_best_speaker 0 1 [⟨0, 1, "A".toList⟩, ⟨0, 1, "B".toList⟩] =
          (([⟨0, 1, "A".toList⟩, ⟨0, 1, "B".toList⟩] : List DiarSeg).get
            ⟨i, hi⟩).speaker ∧
        0 < overlapOf 0 1
          (([⟨0, 1, "A".toList⟩, ⟨0, 1, "B".toList⟩] : List DiarSeg).get
            ⟨i, hi⟩) ∧
        (∀ j (hj : j <
            ([⟨0, 1, "A".toList⟩, ⟨0, 1, "B".toList⟩] : List DiarSeg).length),
          overlapOf 0 1
            (([⟨0, 1, "A".toList⟩, ⟨0, 1, "B".toList⟩] : List DiarSeg).get
              ⟨j, hj⟩) ≤
          overlapOf 0 1
            (([⟨0, 1, "A".toList⟩, ⟨0, 1, "B".toList⟩] : List DiarSeg).get
              ⟨i, hi⟩)) ∧
        (∀ j (hj : j <
            ([⟨0, 1, "A".toList⟩, ⟨0, 1, "B".toList⟩] : List DiarSeg).length),
          overlapOf 0 1
            (([⟨0, 1, "A".toList⟩, ⟨0, 1, "B".toList⟩] : List DiarSeg).get
              ⟨j, hj⟩) =
          overlapOf 0 1
            (([⟨0, 1, "A".toList⟩, ⟨0, 1, "B".toList⟩] : List DiarSeg).get
              ⟨i, hi⟩) → i ≤ j)) := by
  constructor
  · refine (spec_C1_best_overlap_speaker 2 3 _).1 ?_
    intro d hd
    rcases List.mem_cons.mp hd with hd | hd
    · subst hd
      norm_num [overlapOf]
    · simp at hd
  · refine (spec_C1_best_overlap_speaker 0 1 _).2 ?_
    refine ⟨⟨0, 1, "A".toList⟩, by simp, ?_⟩
    norm_num [overlapOf]

/-- C2: consolidation is the left fold with one accumulator; the empty
and singleton cases are identities, and the general step merges the next
cue into the accumulator exactly under the three conditions, extending
the end and joining texts with one space, otherwise flushing. -/
theorem spec_C2_consolidate_fold (maxGap maxDur : ℚ) :
    consolidate_segments [] maxGap maxDur = []
    ∧ (∀ x, consolidate_segments [x] maxGap maxDur = [x])
    ∧ (∀ x y rest,
        consolidate_segments (x :: y :: rest) maxGap maxDur =
          if y.speaker = x.speaker ∧ y.start - x.stop ≤ maxGap ∧
              y.stop - x.start ≤ maxDur then
            consolidate_segments
              ({ x with stop := y.stop, text := x.text ++ ' ' :: y.text } :: rest)
              maxGap maxDur
          else x :: consolidate_segments (y :: rest) maxGap maxDur) := by
  refine ⟨rfl, fun x => rfl, fun x y rest => ?_⟩
  show consolidateGo maxGap maxDur (y :: rest) x = _
  rw [consolidateGo]
  by_cases h : y.speaker = x.speaker ∧ y.start - x.stop ≤ maxGap ∧
      y.stop - x.start ≤ maxDur
  · rw [if_pos h, if_pos h]
    rfl
  · rw [if_neg h, if_neg h]
    rfl

/-- C8: merging preserves length, order and the (start, end, text)
fields, and an empty or absent turn list assigns the default speaker to
every segment without overlap computation. -/
theorem spec_C8_merge_preserves (trans : List TransSeg)
    (diar : Option (List DiarSeg)) :
    (merge_segments trans diar).length = trans.length
    ∧ (merge_segments trans diar).map (fun m => (m.start, m.stop, m.text)) =
        trans.map (fun t => (t.start, t.stop, t.text))
    ∧ ((diar = none ∨ diar = some []) →
        merge_segments trans diar =
          trans.map (fun t => ⟨t.start, t.stop, t.text, "SPEAKER_00".toList⟩)) := by
  by_cases htr : trans = []
  · subst htr
    refine ⟨rfl, rfl, fun _ => rfl⟩
  · unfold merge_segments
    rw [if_neg htr]
    match diar with
    | none =>
      refine ⟨by simp, by simp [List.map_map], fun _ => rfl⟩
    | some [] =>
      refine ⟨by simp, by simp [List.map_map], fun _ => rfl⟩
    | some (d :: ds) =>
      refine ⟨by simp, by simp [List.map_map], fun hcon => ?_⟩
      rcases hcon with hcon | hcon <;> exact absurd hcon (by simp)

theorem spec_C8_witness :
    merge_segments [⟨0, 1, "a".toList⟩] none =
      ([⟨0, 1, "a".toList⟩] : List TransSeg).map
        (fun t => ⟨t.start, t.stop, t.text, "SPEAKER_00".toList⟩) :=
  (spec_C8_merge_preserves [⟨0, 1, "a".toList⟩] none).2.2 (Or.inl rfl)

/-- Characters of the regex class [.:\s] (separator run after the number
in a numbered response line). -/
def isSepChar (c : Char) : Bool :=
  c == '.' || c == ':' || pyIsSpace c

/-- Model of re.match applied to one line of a numbered response with the
source pattern: optional leading whitespace, one or more digits (group
one), one or more separator characters, then the non-empty greedy rest
(group two).  When the separator run reaches the end of the line the
engine backtracks one separator character into group two.  Returns the
captured number and the stripped group two, as used by the source.  The
line is stripped first, as in the source. -/
def matchLine (line : List Char) : Option (ℕ × List Char) :=
  let l := (pyStrip line).dropWhile pyIsSpace
  let ds := l.takeWhile Char.isDigit
  let r1 := l.dropWhile Char.isDigit
  let seps := r1.takeWhile isSepChar
  let r2 := r1.dropWhile isSepChar
  if ds = [] ∨ seps = [] then none
  else if r2 ≠ [] then some (digitsToNat ds, pyStrip r2)
  else if 2 ≤ seps.length then some (digitsToNat ds, pyStrip [seps.getLastD ' '])
  else none

/-- Lines of the response: the source strips the response, then splits on
newline characters. -/
def respLines (response : List Char) : List (List Char) :=
  splitOnChar '\n' (pyStrip response)

/-- Loop of parse_numbered_response over an explicit line list: matching
lines populate a dict (later lines overwrite earlier ones, so lookup
takes the last match), and positions 1..expected are read back with empty
string fallback. -/
def parseLines (lines : List (List Char)) (expected : ℕ) : List (List Char) :=
  let m := lines.filterMap matchLine
  (List.range expected).map (fun j =>
    ((m.reverse.find? (fun kv => kv.1 == j + 1)).map (fun kv => kv.2)).getD [])

/-- Embedding of parse_numbered_response (src/core/translator.py). -/
def parse_numbered_response (response : List Char) (expected : ℕ) :
    List (List Char) :=
  parseLines (respLines response) expected

/-- Outcome of one call to the translation collaborator, as classified by
the source's exception handlers: a successful response text, a rate-limit
error, another API error, or any other exception (which the source does
not catch).  Errors carry an identifier so theorems can speak about which
underlying error a failure reports. -/
inductive ApiResp where
  | success : List Char → ApiResp
  | rateLimit : ℕ → ApiResp
  | apiError : ℕ → ApiResp
  | fatal : ℕ → ApiResp
deriving DecidableEq

/-- Failure modes of translate_batch: missing key (TranslationError),
retries exhausted (TranslationError carrying the last error), a
TranslationError raised from the final APIError handler, and an uncaught
exception propagating out. -/
inductive TransFail where
  | keyMissing : TransFail
  | afterRetries : ℕ → Option ℕ → TransFail
  | apiFail : ℕ → TransFail
  | uncaught : ℕ → TransFail
deriving DecidableEq

/-- Result of translate_batch together with its observable effects: the
sleep durations requested (in order) and the number of collaborator
calls made. -/
inductive BatchOutcome where
  | ok : List (List Char) → BatchOutcome
  | fail : TransFail → BatchOutcome
deriving DecidableEq

structure BatchResult where
  outcome : BatchOutcome
  sleeps : List ℚ
  calls : ℕ
deriving DecidableEq

/-- Retry loop of translate_batch: structurally counts the remaining
attempts (initially max_retries); attempt is the 0-based attempt index.
Rate-limit errors always sleep base * 2 ^ attempt and retry; other API
errors retry the same way except on the last attempt, where they raise
immediately; any other exception propagates at once; exhaustion raises a
TranslationError carrying the last error. -/
def translateLoop (api : ℕ → ApiResp) (texts : List (List Char))
    (maxR : ℕ) (base : ℚ) : ℕ → ℕ → Option ℕ → BatchResult
  | 0, _, last => ⟨.fail (.afterRetries maxR last), [], 0⟩
  | remaining + 1, attempt, _ =>
    match api attempt with
    | .success resp =>
      ⟨.ok (parse_numbered_response resp texts.length), [], 1⟩
    | .rateLimit e =>
      let r := translateLoop api texts maxR base remaining (attempt + 1) (some e)
      ⟨r.outcome, base * 2 ^ attempt :: r.sleeps, r.calls + 1⟩
    | .apiError e =>
      if 0 < remaining then
        let r := translateLoop api texts maxR base remaining (attempt + 1) (some e)
        ⟨r.outcome, base * 2 ^ attempt :: r.sleeps, r.calls + 1⟩
      else ⟨.fail (.apiFail e), [], 1⟩
    | .fatal e => ⟨.fail (.uncaught e), [], 1⟩

/-- Embedding of translate_batch (src/core/translator.py).  The anthropic
client is abstracted as the api function from attempt index to outcome;
the import check is environment-dependent and elided. -/
def translate_batch (api : ℕ → ApiResp) (texts : List (List Char))
    (apiKey : List Char) (maxRetries : ℕ) (retryDelayBase : ℚ) : BatchResult :=
  if texts = [] then ⟨.ok [], [], 0⟩
  else if apiKey = [] then ⟨.fail .keyMissing, [], 0⟩
  else translateLoop api texts maxRetries retryDelayBase maxRetries 0 none

theorem translateLoop_success_eq (api : ℕ → ApiResp) (texts : List (List Char))
    (maxR : ℕ) (base : ℚ) (rem attempt : ℕ) (last : Option ℕ) (resp : List Char)
    (h : api attempt = .success resp) :
    translateLoop api texts maxR base (rem + 1) attempt last =
      ⟨.ok (parse_numbered_response resp texts.length), [], 1⟩ := by
  rw [translateLoop, h]

theorem translateLoop_rate_eq (api : ℕ → ApiResp) (texts : List (List Char))
    (maxR : ℕ) (base : ℚ) (rem attempt : ℕ) (last : Option ℕ) (e : ℕ)
    (h : api attempt = .rateLimit e) :
    translateLoop api texts maxR base (rem + 1) attempt last =
      ⟨(translateLoop api texts maxR base rem (attempt + 1) (some e)).outcome,
        base * 2 ^ attempt ::
          (translateLoop api texts maxR base rem (attempt + 1) (some e)).sleeps,
        (translateLoop api texts maxR base rem (attempt + 1) (some e)).calls + 1⟩ := by
  rw [translateLoop, h]

theorem translateLoop_apiErr_mid_eq (api : ℕ → ApiResp) (texts : List (List Char))
    (maxR : ℕ) (base : ℚ) (rem attempt : ℕ) (last : Option ℕ) (e : ℕ)
    (h : api attempt = .apiError e) (hrem : 0 < rem) :
    translateLoop api texts maxR base (rem + 1) attempt last =
      ⟨(translateLoop api texts maxR base rem (attempt + 1) (some e)).outcome,
        base * 2 ^ attempt ::
          (translateLoop api texts maxR base rem (attempt + 1) (some e)).sleeps,
        (translateLoop api texts maxR base rem (attempt + 1) (some e)).calls + 1⟩ := by
  rw [translateLoop, h]
  simp only [if_pos hrem]

theorem translateLoop_apiErr_last_eq (api : ℕ → ApiResp) (texts : List (List Char))
    (maxR : ℕ) (base : ℚ) (attempt : ℕ) (last : Option ℕ) (e : ℕ)
    (h : api attempt = .apiError e) :
    translateLoop api texts maxR base 1 attempt last =
      ⟨.fail (.apiFail e), [], 1⟩ := by
  rw [translateLoop, h]
  rfl

theorem translateLoop_fatal_eq (api : ℕ → ApiResp) (texts : List (List Char))
    (maxR : ℕ) (base : ℚ) (rem attempt : ℕ) (last : Option ℕ) (e : ℕ)
    (h : api attempt = .fatal e) :
    translateLoop api texts maxR base (rem + 1) attempt last =
      ⟨.fail (.uncaught e), [], 1⟩ := by
  rw [translateLoop, h]

theorem translateLoop_all_rate (api : ℕ → ApiResp) (texts : List (List Char))
    (maxR : ℕ) (base : ℚ) (e : ℕ → ℕ) :
    ∀ remaining attempt last, 0 < remaining →
      (∀ i, attempt ≤ i → i < attempt + remaining → api i = .rateLimit (e i)) →
      translateLoop api texts maxR base remaining attempt last =
        ⟨.fail (.afterRetries maxR (some (e (attempt + remaining - 1)))),
          (List.range' attempt remaining).map (fun i => base * 2 ^ i),
          remaining⟩ := by
  intro remaining
  induction remaining with
  | zero =>
    intro attempt last h _
    exact absurd h (lt_irrefl 0)
  | succ rem ih =>
    intro attempt last _ hall
    rw [translateLoop_rate_eq api texts maxR base rem attempt last (e attempt)
      (hall attempt (le_refl _) (by omega))]
    cases rem with
    | zero =>
      rw [translateLoop]
      rw [List.range'_succ]
      simp
    | succ m =>
      rw [ih (attempt + 1) (some (e attempt)) (Nat.succ_pos m)
        (fun i h1 h2 => hall i (by omega) (by omega))]
      have hidx : attempt + 1 + (m + 1) - 1 = attempt + (m + 1 + 1) - 1 := by
        omega
      rw [hidx]
      simp [List.range'_succ]

theorem translateLoop_all_apiErr (api : ℕ → ApiResp) (texts : List (List Char))
    (maxR : ℕ) (base : ℚ) (e : ℕ → ℕ) :
    ∀ remaining attempt last, 0 < remaining →
      (∀ i, attempt ≤ i → i < attempt + remaining → api i = .apiError (e i)) →
      translateLoop api texts maxR base remaining attempt last =
        ⟨.fail (.apiFail (e (attempt + remaining - 1))),
          (List.range' attempt (remaining - 1)).map (fun i => base * 2 ^ i),
          remaining⟩ := by
  intro remaining
  induction remaining with
  | zero =>
    intro attempt last h _
    exact absurd h (lt_irrefl 0)
  | succ rem ih =>
    intro attempt last _ hall
    cases rem with
    | zero =>
      rw [translateLoop_apiErr_last_eq api texts maxR base attempt last
        (e attempt) (hall attempt (le_refl _) (by omega))]
      simp
    | succ m =>
      rw [translateLoop_apiErr_mid_eq api texts maxR base (m + 1) attempt last
        (e attempt) (hall attempt (le_refl _) (by omega)) (Nat.succ_pos m)]
      rw [ih (attempt + 1) (some (e attempt)) (Nat.succ_pos m)
        (fun i h1 h2 => hall i (by omega) (by omega))]
      have hidx : attempt + 1 + (m + 1) - 1 = attempt + (m + 1 + 1) - 1 := by
        omega
      have hsz : (m + 1 + 1 : ℕ) - 1 = (m + 1 - 1) + 1 := by omega
      rw [hidx, hsz]
      simp [List.range'_succ]

theorem translateLoop_rate_then_success (api : ℕ → ApiResp)
    (texts : List (List Char)) (maxR : ℕ) (base : ℚ) (e : ℕ → ℕ)
    (resp : List Char) :
    ∀ k remaining attempt last, k < remaining →
      (∀ i, attempt ≤ i → i < attempt + k → api i = .rateLimit (e i)) →
      api (attempt + k) = .success resp →
      translateLoop api texts maxR base remaining attempt last =
        ⟨.ok (parse_numbered_response resp texts.length),
          (List.range' attempt k).map (fun i => base * 2 ^ i),
          k + 1⟩ := by
  intro k
  induction k with
  | zero =>
    intro remaining attempt last hk _ hsucc
    cases remaining with
    | zero => exact absurd hk (lt_irrefl 0)
    | succ rem =>
      rw [translateLoop_success_eq api texts maxR base rem attempt last resp
        (by simpa using hsucc)]
      simp
  | succ k ih =>
    intro remaining attempt last hk hall hsucc
    cases remaining with
    | zero => exact absurd hk (Nat.not_lt_zero _)
    | succ rem =>
      rw [translateLoop_rate_eq api texts maxR base rem attempt last (e attempt)
        (hall attempt (le_refl _) (by omega))]
      rw [ih rem (attempt + 1) (some (e attempt)) (by omega)
        (fun i h1 h2 => hall i (by omega) (by omega))
        (by rw [show attempt + 1 + k = attempt + (k + 1) from by omega]
            exact hsucc)]
      simp [List.range'_succ]

/-- C3: with nonempty texts and key, translate_batch retries rate-limit
and transient API errors up to maxRetries attempts in total, sleeping
base * 2 ^ attempt before each retry (attempt counted from 0); when all
attempts fail it raises a TranslationError carrying the last underlying
error (for transient API errors the final attempt raises immediately
inside the handler); an unclassified exception propagates at once after a
single call with no sleeps. -/
theorem spec_C3_retry_policy (api : ℕ → ApiResp) (texts : List (List Char))
    (apiKey : List Char) (maxR : ℕ) (base : ℚ) (e : ℕ → ℕ) (resp : List Char)
    (htexts : texts ≠ []) (hkey : apiKey ≠ []) :
    ((∀ i, i < maxR → api i = .rateLimit (e i)) → 0 < maxR →
      translate_batch api texts apiKey maxR base =
        ⟨.fail (.afterRetries maxR (some (e (maxR - 1)))),
          (List.range maxR).map (fun i => base * 2 ^ i), maxR⟩)
    ∧ ((∀ i, i < maxR → api i = .apiError (e i)) → 0 < maxR →
      translate_batch api texts apiKey maxR base =
        ⟨.fail (.apiFail (e (maxR - 1))),
          (List.range (maxR - 1)).map (fun i => base * 2 ^ i), maxR⟩)
    ∧ (∀ k, k < maxR → (∀ i, i < k → api i = .rateLimit (e i)) →
        api k = .success resp →
      translate_batch api texts apiKey maxR base =
        ⟨.ok (parse_numbered_response resp texts.length),
          (List.range k).map (fun i => base * 2 ^ i), k + 1⟩)
    ∧ (api 0 = .fatal (e 0) → 0 < maxR →
      translate_batch api texts apiKey maxR base =
        ⟨.fail (.uncaught (e 0)), [], 1⟩) := by
  have hbatch : translate_batch api texts apiKey maxR base =
      translateLoop api texts maxR base maxR 0 none := by
    unfold translate_batch
    rw [if_neg htexts, if_neg hkey]
  refine ⟨?_, ?_, ?_, ?_⟩
  · intro hall hpos
    rw [hbatch, translateLoop_all_rate api texts maxR base e maxR 0 none hpos
      (fun i h1 h2 => hall i (by omega))]
    rw [List.range_eq_range']
    simp
  · intro hall hpos
    rw [hbatch, translateLoop_all_apiErr api texts maxR base e maxR 0 none hpos
      (fun i h1 h2 => hall i (by omega))]
    rw [List.range_eq_range']
    simp
  · intro k hk hall hsucc
    rw [hbatch, translateLoop_rate_then_success api texts maxR base e resp
      k maxR 0 none hk (fun i h1 h2 => hall i (by omega))
      (by simpa using hsucc)]
    rw [List.range_eq_range']
  · intro hfatal hpos
    rw [hbatch]
    cases maxR with
    | zero => exact absurd hpos (lt_irrefl 0)
    | succ m =>
      exact translateLoop_fatal_eq api texts (m + 1) base m 0 none (e 0) hfatal

theorem spec_C3_witness :
    (translate_batch (fun i => .rateLimit i) ["x".toList] "k".toList 2 1 =
      ⟨.fail (.afterRetries 2 (some 1)),
        (List.range 2).map (fun i => (1 : ℚ) * 2 ^ i), 2⟩)
    ∧ (translate_batch (fun _ => .fatal 7) ["x".toList] "k".toList 2 1 =
      ⟨.fail (.uncaught 7), [], 1⟩) := by
  constructor
  · exact (spec_C3_retry_policy (fun i => .rateLimit i) ["x".toList]
      "k".toList 2 1 (fun i => i) [] (by simp) (by simp)).1
      (fun i _ => rfl) (by omega)
  · exact (spec_C3_retry_policy (fun _ => .fatal 7) ["x".toList]
      "k".toList 2 1 (fun _ => 7) [] (by simp) (by simp)).2.2.2
      rfl (by omega)

theorem find?_append_of_none (p : ℕ × List Char → Bool) :
    ∀ as bs : List (ℕ × List Char), as.find? p = none →
      (as ++ bs).find? p = bs.find? p := by
  intro as bs h
  induction as with
  | nil => simp
  | cons a rest ih =>
    cases hpa : p a with
    | false =>
      rw [List.cons_append, List.find?_cons_of_neg _ (by simp [hpa])]
      rw [List.find?_cons_of_neg _ (by simp [hpa])] at h
      exact ih h
    | true =>
      rw [List.find?_cons_of_pos _ hpa] at h
      exact absurd h (by simp)

/-- C4: parse_numbered_response always returns exactly expected_count
entries; a position whose index no line supplied is the empty string; a
position supplied by a matching line holds that line's trimmed remainder
(the last matching line for the index, per dict overwrite); non-matching
lines are ignored without error; and the example with a missing middle
index parses as specified. -/
theorem spec_C4_parse_numbered (response : List Char) (expected : ℕ) :
    (parse_numbered_response response expected).length = expected
    ∧ (∀ i, i < expected →
        (∀ l ∈ respLines response, ∀ v, matchLine l ≠ some (i + 1, v)) →
        (parse_numbered_response response expected)[i]? = some [])
    ∧ (∀ i, i < expected → ∀ pre l post v,
        respLines response = pre ++ l :: post →
        matchLine l = some (i + 1, v) →
        (∀ l2 ∈ post, ∀ v2, matchLine l2 ≠ some (i + 1, v2)) →
        (parse_numbered_response response expected)[i]? = some v)
    ∧ (∀ lines junk n, matchLine junk = none →
        parseLines (lines ++ [junk]) n = parseLines lines n)
    ∧ parse_numbered_response ("1. 你好\n3. 再见".toList) 3 =
        ["你好".toList, [], "再见".toList] := by
  refine ⟨?_, ?_, ?_, ?_, ?_⟩
  · simp [parse_numbered_response, parseLines]
  · intro i hi hnone
    have hfind : (((respLines response).filterMap matchLine).reverse.find?
        (fun kv => kv.1 == i + 1)) = none := by
      rw [List.find?_eq_none]
      intro kv hkv
      rw [List.mem_reverse] at hkv
      obtain ⟨l, hl, hml⟩ := List.mem_filterMap.mp hkv
      obtain ⟨k, v⟩ := kv
      simp only [beq_iff_eq]
      intro hk
      subst hk
      exact hnone l hl v hml
    unfold parse_numbered_response parseLines
    simp only [List.getElem?_map, List.getElem?_range, hi, if_pos]
    simp [hfind]
  · intro i hi pre l post v hresp hml hpost
    have hnone : ((post.filterMap matchLine).reverse.find?
        (fun kv => kv.1 == i + 1)) = none := by
      rw [List.find?_eq_none]
      intro kv hkv
      rw [List.mem_reverse] at hkv
      obtain ⟨l2, hl2, hml2⟩ := List.mem_filterMap.mp hkv
      obtain ⟨k, v2⟩ := kv
      simp only [beq_iff_eq]
      intro hk
      subst hk
      exact hpost l2 hl2 v2 hml2
    unfold parse_numbered_response parseLines
    simp only [List.getElem?_map, List.getElem?_range, hi, if_pos,
      Option.map_some']
    rw [hresp, List.filterMap_append, List.filterMap_cons_some hml]
    rw [List.reverse_append, List.reverse_cons, List.append_assoc,
      List.singleton_append]
    rw [find?_append_of_none _ _ _ hnone]
    rw [List.find?_cons_of_pos _ (by simp)]
    rfl
  · intro lines junk n hjunk
    unfold parseLines
    rw [List.filterMap_append]
    simp [hjunk]
  · decide

theorem spec_C4_witness :
    ((parse_numbered_response ("2. x".toList) 1)[0]? = some [])
    ∧ ((parse_numbered_response ("1. hi".toList) 1)[0]? = some ("hi".toList))
    ∧ parseLines (["1. a".toList] ++ ["zzz".toList]) 5 =
        parseLines ["1. a".toList] 5 := by
  refine ⟨?_, ?_, ?_⟩
  · refine (spec_C4_parse_numbered ("2. x".toList) 1).2.1 0 (by decide) ?_
    intro l hl v
    have hresp : respLines ("2. x".toList) = ["2. x".toList] := by decide
    rw [hresp] at hl
    have hl' : l = "2. x".toList := by simpa using hl
    subst hl'
    have hml : matchLine ("2. x".toList) = some (2, "x".toList) := by decide
    rw [hml]
    intro hEq
    have h2 : (2 : ℕ) = 0 + 1 := congrArg Prod.fst (Option.some.inj hEq)
    exact absurd h2 (by decide)
  · refine (spec_C4_parse_numbered ("1. hi".toList) 1).2.2.1 0 (by decide)
      [] ("1. hi".toList) [] ("hi".toList) (by decide) (by decide) ?_
    intro l2 hl2 v2
    exact absurd hl2 (List.not_mem_nil l2)
  · exact (spec_C4_parse_numbered [] 0).2.2.2.1 ["1. a".toList] ("zzz".toList) 5
      (by decide)

/-- A translated segment: the input dict copied with the translation key
added (src/core/translator.py, translate_segments). -/
structure TranslatedSeg where
  start : ℚ
  stop : ℚ
  text : List Char
  speaker : List Char
  translation : List Char
deriving DecidableEq

/-- seg.copy() followed by adding the translation key. -/
def mkTranslated (s : MergedSeg) (tr : List Char) : TranslatedSeg :=
  ⟨s.start, s.stop, s.text, s.speaker, tr⟩

/-- Batching loop of translate_segments, with recursion fuel (at least
the list length): take batch_size segments, translate their texts in one
collaborator call, zip the batch with the returned translations, and
continue with the rest.  bs1 is batch_size - 1 since the head is split
off.  The translate collaborator tr abstracts translate_batch with its
fixed key/model/retry arguments; the optional progress callback is a
pure notification and is elided. -/
def translateSegsGo (tr : List (List Char) → List (List Char)) (bs1 : ℕ) :
    ℕ → List MergedSeg → List TranslatedSeg
  | _, [] => []
  | 0, _ :: _ => []
  | fuel + 1, x :: xs =>
    List.zipWith mkTranslated (x :: xs.take bs1)
        (tr ((x :: xs.take bs1).map (fun s => s.text))) ++
      translateSegsGo tr bs1 fuel (xs.drop bs1)

/-- Embedding of translate_segments (src/core/translator.py): empty
input short-circuits; a zero batch size makes Python range raise
ValueError, modelled as the error branch. -/
def translate_segments (tr : List (List Char) → List (List Char))
    (segs : List MergedSeg) (batchSize : ℕ) :
    Except Unit (List TranslatedSeg) :=
  if segs = [] then .ok []
  else if batchSize = 0 then .error ()
  else .ok (translateSegsGo tr (batchSize - 1) segs.length segs)

theorem zipWith_mkTranslated_proj :
    ∀ (b : List MergedSeg) (ts : List (List Char)), ts.length = b.length →
      (List.zipWith mkTranslated b ts).map
          (fun o => (o.start, o.stop, o.text, o.speaker)) =
        b.map (fun s => (s.start, s.stop, s.text, s.speaker)) := by
  intro b
  induction b with
  | nil => intro ts _; rfl
  | cons x xs ih =>
    intro ts h
    cases ts with
    | nil => simp at h
    | cons t ts2 =>
      simp only [List.zipWith_cons_cons, List.map_cons]
      rw [ih ts2 (by simpa using h)]
      rfl

theorem translateSegsGo_spec (tr : List (List Char) → List (List Char))
    (hlen : ∀ ts, (tr ts).length = ts.length) (bs1 : ℕ) :
    ∀ fuel segs, segs.length ≤ fuel →
      (translateSegsGo tr bs1 fuel segs).map
          (fun o => (o.start, o.stop, o.text, o.speaker)) =
        segs.map (fun s => (s.start, s.stop, s.text, s.speaker)) := by
  intro fuel
  induction fuel with
  | zero =>
    intro segs h
    cases segs with
    | nil => rfl
    | cons x xs => simp at h
  | succ fuel ih =>
    intro segs h
    cases segs with
    | nil => rfl
    | cons x xs =>
      rw [translateSegsGo]
      rw [List.map_append]
      rw [zipWith_mkTranslated_proj (x :: xs.take bs1) _
        (by rw [hlen, List.length_map])]
      rw [ih (xs.drop bs1) (by
        simp only [List.length_drop]
        simp only [List.length_cons] at h
        omega)]
      rw [← List.map_append]
      congr 1
      simp only [List.cons_append]
      rw [List.take_append_drop]

/-- C10: translate_segments succeeds on a positive batch size whenever
the collaborator returns one translation per text, producing a list of
the same length whose elements preserve the four input fields and carry
exactly the added translation field (freshness of the copies is value
semantics in the embedding; the source copies each dict). -/
theorem spec_C10_translate_segments (tr : List (List Char) → List (List Char))
    (segs : List MergedSeg) (batchSize : ℕ) (hbs : 0 < batchSize)
    (hlen : ∀ ts, (tr ts).length = ts.length) :
    ∃ out, translate_segments tr segs batchSize = .ok out ∧
      out.length = segs.length ∧
      out.map (fun o => (o.start, o.stop, o.text, o.speaker)) =
        segs.map (fun s => (s.start, s.stop, s.text, s.speaker)) := by
  by_cases hsegs : segs = []
  · subst hsegs
    exact ⟨[], rfl, rfl, rfl⟩
  · refine ⟨translateSegsGo tr (batchSize - 1) segs.length segs, ?_, ?_, ?_⟩
    · unfold translate_segments
      rw [if_neg hsegs, if_neg (by omega)]
    · have h := translateSegsGo_spec tr hlen (batchSize - 1) segs.length segs
        (le_refl _)
      have := congrArg List.length h
      simpa using this
    · exact translateSegsGo_spec tr hlen (batchSize - 1) segs.length segs
        (le_refl _)

theorem spec_C10_witness :
    (0 : ℕ) < 1 ∧
      ∃ out, translate_segments (fun ts => ts)
          [⟨0, 1, "a".toList, "S".toList⟩] 1 = .ok out ∧
        out.length = ([⟨0, 1, "a".toList, "S".toList⟩] : List MergedSeg).length ∧
        out.map (fun o => (o.start, o.stop, o.text, o.speaker)) =
          ([⟨0, 1, "a".toList, "S".toList⟩] : List MergedSeg).map
            (fun s => (s.start, s.stop, s.text, s.speaker)) :=
  ⟨Nat.one_pos,
    spec_C10_translate_segments (fun ts => ts)
      [⟨0, 1, "a".toList, "S".toList⟩] 1 Nat.one_pos (fun _ => rfl)⟩

/-- Python str.replace for a one-character pattern (the only form
escape_ass_text uses): every occurrence of the pattern character is
replaced left to right and the replacement is not rescanned. -/
def replaceChar (pat : Char) (rep : List Char) : List Char → List Char
  | [] => []
  | c :: rest =>
    if c = pat then rep ++ replaceChar pat rep rest
    else c :: replaceChar pat rep rest

/-- Embedding of escape_ass_text (src/utils/ass_generator.py): replace
newline, then the opening brace, then the closing brace, in source
order. -/
def escape_ass_text (text : List Char) : List Char :=
  replaceChar '\x7d' ['\\', '\x7d']
    (replaceChar '\x7b' ['\\', '\x7b']
      (replaceChar '\n' ['\\', 'N'] text))

/-- Character-wise escaping map as the spec words it: newline to
backslash-N, each brace to backslash-brace, everything else unchanged. -/
def escSpecChar (c : Char) : List Char :=
  if c = '\n' then ['\\', 'N']
  else if c = '\x7b' then ['\\', '\x7b']
  else if c = '\x7d' then ['\\', '\x7d']
  else [c]

/-- Text field composed by generate_dialogue_line: translation appended
as a second line after a backslash-N break when non-empty (Python
truthiness), original alone otherwise. -/
def dialogueText (ja zh : List Char) : List Char :=
  if zh ≠ [] then escape_ass_text ja ++ '\\' :: 'N' :: escape_ass_text zh
  else escape_ass_text ja

/-- Embedding of generate_dialogue_line (src/utils/ass_generator.py). -/
def generate_dialogue_line (start stop : ℚ) (speaker ja zh : List Char) :
    List Char :=
  "Dialogue: 0,".toList ++ seconds_to_ass_time start ++
    ',' :: seconds_to_ass_time stop ++ ',' :: speaker ++
    ",,0,0,0,,".toList ++ dialogueText ja zh

/-- Rendered text fields of the dialogue lines emitted by generate_ass,
in input order: per segment the text and, when include_translation is
set, its translation (header, style table and file writing do not touch
these fields). -/
def assRenderedTexts (segs : List TranslatedSeg) (includeTranslation : Bool) :
    List (List Char) :=
  segs.map (fun s =>
    dialogueText s.text (if includeTranslation then s.translation else []))

theorem replaceChar_eq_bind (pat : Char) (rep : List Char) :
    ∀ s : List Char,
      replaceChar pat rep s = s.flatMap (fun c => if c = pat then rep else [c]) := by
  intro s
  induction s with
  | nil => rfl
  | cons c rest ih =>
    rw [replaceChar, List.flatMap_cons, ih]
    by_cases h : c = pat
    · rw [if_pos h, if_pos h]
    · rw [if_neg h, if_neg h]
      rfl

theorem escape_eq_bind (s : List Char) :
    escape_ass_text s = s.flatMap escSpecChar := by
  unfold escape_ass_text
  rw [replaceChar_eq_bind, replaceChar_eq_bind, replaceChar_eq_bind]
  rw [List.flatMap_assoc, List.flatMap_assoc]
  congr 1
  funext c
  by_cases h1 : c = '\n'
  · subst h1
    decide
  · by_cases h2 : c = '\x7b'
    · subst h2
      decide
    · by_cases h3 : c = '\x7d'
      · subst h3
        decide
      · simp [escSpecChar, h1, h2, h3]

/-- C6: the escaping is exactly the three substitutions and nothing else
(character-wise characterization), the rendered cue text is the escaped
original alone when the translation is empty and original, break, escaped
translation otherwise, and the concrete example escapes as specified. -/
theorem spec_C6_escape_layout (ja zh : List Char) :
    escape_ass_text ja = ja.flatMap escSpecChar
    ∧ (zh = [] → dialogueText ja zh = escape_ass_text ja)
    ∧ (zh ≠ [] → dialogueText ja zh =
        escape_ass_text ja ++ '\\' :: 'N' :: escape_ass_text zh)
    ∧ escape_ass_text ("Hello\n\x7bworld\x7d".toList) =
        "Hello\\N\\\x7bworld\\\x7d".toList := by
  refine ⟨escape_eq_bind ja, ?_, ?_, by decide⟩
  · intro h
    unfold dialogueText
    rw [if_neg (by simp [h])]
  · intro h
    unfold dialogueText
    rw [if_pos h]

theorem spec_C6_witness :
    (dialogueText "a".toList [] = escape_ass_text "a".toList)
    ∧ (dialogueText "a".toList "b".toList =
        escape_ass_text "a".toList ++ '\\' :: 'N' :: escape_ass_text "b".toList) :=
  ⟨(spec_C6_escape_layout "a".toList []).2.1 rfl,
    (spec_C6_escape_layout "a".toList "b".toList).2.2.1 (by decide)⟩

/-- C9 as stated is false: this non-empty cue list rendered with
translation enabled emits a dialogue line whose rendered text field is
empty, because both the original text and the translation are empty. -/
theorem spec_C9_counterexample :
    ([⟨0, 1, [], "A".toList, []⟩] : List TranslatedSeg) ≠ [] ∧
      assRenderedTexts [⟨0, 1, [], "A".toList, []⟩] true = [[]] := by
  constructor
  · simp
  · rfl

/-- C9 amended: with translation enabled the serializer never emits an
empty rendered cue text provided every cue has a non-empty original text
or a non-empty translation; a cue with both empty is the only way to
render empty text. -/
theorem spec_C9_nonempty_rendered (segs : List TranslatedSeg)
    (h : ∀ s ∈ segs, s.text ≠ [] ∨ s.translation ≠ []) :
    ∀ t ∈ assRenderedTexts segs true, t ≠ [] := by
  have hesc : ∀ l : List Char, l ≠ [] → escape_ass_text l ≠ [] := by
    intro l hl hcontra
    rw [escape_eq_bind] at hcontra
    cases l with
    | nil => exact hl rfl
    | cons c rest =>
      rw [List.flatMap_cons] at hcontra
      obtain ⟨h1, _⟩ := List.append_eq_nil.mp hcontra
      have hne : escSpecChar c ≠ [] := by
        unfold escSpecChar
        split
        · simp
        · split
          · simp
          · split <;> simp
      exact hne h1
  intro t ht
  obtain ⟨s, hs, hts⟩ := List.mem_map.mp ht
  subst hts
  show dialogueText s.text s.translation ≠ []
  unfold dialogueText
  by_cases hz : s.translation ≠ []
  · rw [if_pos hz]
    intro hcontra
    obtain ⟨_, h2⟩ := List.append_eq_nil.mp hcontra
    simp at h2
  · rw [if_neg hz]
    rcases h s hs with hx | hx
    · exact hesc s.text hx
    · exact absurd hx hz

theorem spec_C9_witness :
    dialogueText "a".toList [] ≠ [] :=
  spec_C9_nonempty_rendered [⟨0, 1, "a".toList, "S".toList, []⟩]
    (by decide) (dialogueText "a".toList []) (by decide)
